import Mathlib

/-!
Verification development for the pestools repository (scantle/pestools).

The development shallowly embeds the three source files the claims touch:

* FileReader.py — a byte-position-aware sequential reader (class FileReader);
* rec.py       — the optimization-record extractor (class Rec);
* sen.py       — the sensitivity extractor (class Sen).

The file content is modelled as a list of characters together with a byte
offset (the Python file is opened in binary mode, and every character in the
fixtures used here is one byte, so character offsets coincide with the byte
offsets returned by file.tell()).  Python exceptions are modelled with an
Except monad; loops whose body advances the cursor are written with explicit
fuel, so every definition is a computable total function and a run that would
not terminate in Python is visible as an out-of-fuel result for every fuel
value.  pestools is Python 2 code (it mixes str patterns with lines read from
a file opened in binary mode, and uses pd.np), so string semantics below are
those of Python 2 byte strings.
-/

/-- Python exceptions raised (or modelled) by the embedded code.  outOfFuel is
not a Python exception: it is the explicit fuel-exhaustion marker used to make
the embedded loops total. -/
inductive PyErr where
  | eofError : PyErr
  | indexError : PyErr
  | valueError : PyErr
  | keyError : PyErr
  | outOfFuel : PyErr
deriving DecidableEq

/-- Decidable equality of Except results, for concrete evaluation of the
embedded runs. -/
instance instDecEqExcept {ε α : Type} [DecidableEq ε] [DecidableEq α] :
    DecidableEq (Except ε α) := fun x y =>
  match x, y with
  | .ok a, .ok b =>
    if h : a = b then isTrue (by rw [h])
    else isFalse (by intro hc; cases hc; exact h rfl)
  | .error a, .error b =>
    if h : a = b then isTrue (by rw [h])
    else isFalse (by intro hc; cases hc; exact h rfl)
  | .ok _, .error _ => isFalse (by intro hc; cases hc)
  | .error _, .ok _ => isFalse (by intro hc; cases hc)

/-- Python str.strip() whitespace set (space, tab, newline, carriage return,
vertical tab, form feed). -/
def isPySpace (c : Char) : Bool :=
  c = ' ' || c = '\t' || c = '\n' || c = '\r' || c = '\x0b' || c = '\x0c'

/-- Removes leading and trailing characters satisfying p, as Python
str.strip does for its character set. -/
def stripBy (p : Char → Bool) (l : List Char) : List Char :=
  ((l.dropWhile p).reverse.dropWhile p).reverse

/-- Python line.strip() with the default whitespace set. -/
def pyStrip (l : List Char) : List Char := stripBy isPySpace l

/-- Python line.strip(set) for an explicit character set, e.g. strip('"')
in sen.py line 104 and strip('\r\n ') in FileReader.py line 161. -/
def pyStripChars (set : List Char) (l : List Char) : List Char :=
  stripBy (fun c => set.contains c) l

/-- Helper for pySplit: accumulates the current token (reversed) while
scanning the line. -/
def splitGo (acc : List Char) : List Char → List (List Char)
  | [] => if acc = [] then [] else [acc.reverse]
  | c :: cs =>
    if isPySpace c then
      if acc = [] then splitGo [] cs else acc.reverse :: splitGo [] cs
    else splitGo (c :: acc) cs

/-- Python line.split() with no argument: splits on runs of whitespace and
never yields empty tokens. -/
def pySplit (l : List Char) : List (List Char) := splitGo [] l

/-- Python list indexing with a possibly negative index, returning none where
Python raises IndexError. -/
def pyGet (l : List (List Char)) (i : Int) : Option (List Char) :=
  if 0 ≤ i then l.get? i.toNat
  else if i.natAbs ≤ l.length then l.get? (l.length - i.natAbs) else none

/-- Lower-cases every character, as Python str.lower() does over the ASCII
content of a rec file. -/
def lowerL (l : List Char) : List Char := l.map Char.toLower

/-- Prefix test on character lists. -/
def isPrefixOfL : List Char → List Char → Bool
  | [], _ => true
  | _ :: _, [] => false
  | p :: ps, h :: hs => p = h && isPrefixOfL ps hs

/-- Python substring containment (pat in hay). -/
def containsSub (pat : List Char) : List Char → Bool
  | [] => isPrefixOfL pat []
  | c :: cs => isPrefixOfL pat (c :: cs) || containsSub pat cs

/-- One line read from a character list: everything up to and including the
first newline, or the whole remainder when no newline follows (exactly what
Python readline() returns from the current offset). -/
def takeLine : List Char → List Char
  | [] => []
  | c :: cs => if c = '\n' then [c] else c :: takeLine cs

/-- FileReader state: the opened content and the current byte offset.
st_size (FileReader.py line 43) is content.length; the file is never written
while being read. -/
structure FileState where
  content : List Char
  pos : Nat
deriving DecidableEq

/-- FileReader.py line 60-65 (eof_check): true iff the current byte position
has reached the byte length of the file. -/
def FileState.eof_check (s : FileState) : Bool := s.content.length ≤ s.pos

/-- Python fileobject.seek(p). -/
def FileState.seek (s : FileState) (p : Nat) : FileState := { s with pos := p }

/-- Python fileobject.readline(): returns the next line (newline included)
and advances the offset past it; returns the empty string at EOF without
moving the offset. -/
def FileState.readline (s : FileState) : List Char × FileState :=
  let line := takeLine (s.content.drop s.pos)
  (line, { s with pos := s.pos + line.length })

/-- FileReader.py lines 67-74 (get_cleanline): reads one line, strips it, and
when a field index is given returns that whitespace-delimited token, raising
IndexError when the index is out of range. -/
def get_cleanline (s : FileState) (pos : Option Int) :
    Except PyErr (List Char × FileState) :=
  let r := s.readline
  let line := pyStrip r.1
  match pos with
  | none => .ok (line, r.2)
  | some i =>
    match pyGet (pySplit line) i with
    | some tok => .ok (tok, r.2)
    | none => .error .indexError

/-- FileReader.py lines 114-118 (skiplines): advances past exactly n lines
with no validation of their content. -/
def skiplines (s : FileState) : Nat → FileState
  | 0 => s
  | n + 1 => skiplines s.readline.2 n

/-- Loop body of FileReader.py lines 126-130 (the while loop of nextline).
Arguments mirror the Python locals: last_pos is the offset recorded before
the line held in line was read, s is the state after reading it.  The EOF
check is performed, as in the source, immediately after reading a line and
before that line's blankness is reconsidered. -/
def nextlineLoop : Nat → Nat → List Char → FileState → Except PyErr FileState
  | fuel, last_pos, line, s =>
    if pyStrip line ≠ [] then .ok (s.seek last_pos)
    else
      match fuel with
      | 0 => .error .outOfFuel
      | n + 1 =>
        let last' := s.pos
        let r := s.readline
        if r.2.eof_check then .error .eofError
        else nextlineLoop n last' r.1 r.2

/-- FileReader.py lines 120-131 (nextline): finds the next non-blank line and
rewinds to its start. -/
def nextline (fuel : Nat) (s : FileState) : Except PyErr FileState :=
  let last_pos := s.pos
  let r := s.readline
  nextlineLoop fuel last_pos r.1 r.2

/-- Loop of FileReader.py lines 141-148 (find_phrase): scans forward line by
line until a line contains the (already case-folded) phrase; the EOF check
happens after the containment test, so a phrase on the final line is still
found. -/
def findPhraseLoop (phrase : List Char) (case_sens rewind : Bool) :
    Nat → FileState → Except PyErr FileState
  | 0, _ => .error .outOfFuel
  | n + 1, s =>
    let last_pos := s.pos
    let r := s.readline
    let line := if case_sens then r.1 else lowerL r.1
    if containsSub phrase line then
      if rewind then .ok (r.2.seek last_pos) else .ok r.2
    else if r.2.eof_check then .error .eofError
    else findPhraseLoop phrase case_sens rewind n r.2

/-- FileReader.py lines 133-151 (find_phrase): the phrase is lower-cased once
up front unless the search is case sensitive. -/
def find_phrase (fuel : Nat) (phrase : List Char) (rewind case_sens : Bool)
    (s : FileState) : Except PyErr FileState :=
  let phrase := if case_sens then phrase else lowerL phrase
  findPhraseLoop phrase case_sens rewind fuel s

/-- Break test of FileReader.py line 159: the line starts with a comment
character, or is the empty string the file iterator never actually yields. -/
def ddBreakA (line : List Char) : Bool :=
  (match line.head? with
   | some c => c = 'C' || c = 'c' || c = '*'
   | none => false) || line = []

/-- Break test of FileReader.py line 161: the line is blank once carriage
returns, newlines and spaces are stripped. -/
def ddBreakB (line : List Char) : Bool :=
  pyStripChars ['\r', '\n', ' '] line = []

/-- Splits a character list into the successive lines Python file iteration
would yield (each including its newline, the final one possibly without). -/
def linesGo (acc : List Char) : List Char → List (List Char)
  | [] => if acc = [] then [] else [acc.reverse]
  | c :: cs =>
    if c = '\n' then (acc.reverse ++ ['\n']) :: linesGo [] cs
    else linesGo (c :: acc) cs

/-- All lines of a character list, in file-iteration order. -/
def linesOf (l : List Char) : List (List Char) := linesGo [] l

/-- Counter loop of FileReader.py lines 156-163: counts lines until a break
test fires or the lines are exhausted. -/
def ddCountLines : List (List Char) → Nat
  | [] => 0
  | line :: rest =>
    if ddBreakA line || ddBreakB line then 0 else 1 + ddCountLines rest

/-- FileReader.py lines 153-165 (get_datadist): counts the data lines ahead
of the cursor and seeks back to the position recorded on entry. -/
def get_datadist (s : FileState) : Nat × FileState :=
  let last_pos := s.pos
  let counter := ddCountLines (linesOf (s.content.drop s.pos))
  (counter, s.seek last_pos)

/-- Splits a list at the first character satisfying p; the second component
is none when no such character occurs. -/
def splitFirst (p : Char → Bool) : List Char → List Char × Option (List Char)
  | [] => ([], none)
  | c :: cs =>
    if p c then ([], some cs)
    else
      let r := splitFirst p cs
      (c :: r.1, r.2)

/-- Digit-string value, most significant first. -/
def digitsVal (l : List Char) : Nat :=
  l.foldl (fun a c => a * 10 + (c.toNat - 48)) 0

/-- Python float(token) on the decimal literals PEST writes (optional sign,
digits with an optional fractional part, optional e/E exponent), raising
ValueError on anything else — in particular on the textual failure sentinel
token cannot.  The special float literals nan/inf never occur in the numeric
fields of a PEST record file and are not modelled. -/
def parseFloat (tok : List Char) : Except PyErr ℚ :=
  let t := pyStrip tok
  let sp : ℤ × List Char :=
    match t with
    | '-' :: r => (-1, r)
    | '+' :: r => (1, r)
    | _ => (1, t)
  let me := splitFirst (fun c => c = 'e' || c = 'E') sp.2
  let ifr := splitFirst (fun c => c = '.') me.1
  let ip := ifr.1
  let fp := (ifr.2).getD []
  if ip.all Char.isDigit ∧ fp.all Char.isDigit ∧ (ip ≠ [] ∨ fp ≠ []) then
    let mval : ℤ := sp.1 * ((digitsVal ip) * 10 ^ fp.length + digitsVal fp)
    let base : ℚ :=
      if fp.length = 0 then (mval : ℚ)
      else (mval : ℚ) / ((10 ^ fp.length : ℕ) : ℚ)
    match me.2 with
    | none => .ok base
    | some ep =>
      let es : Bool × List Char :=
        match ep with
        | '-' :: r => (false, r)
        | '+' :: r => (true, r)
        | _ => (true, ep)
      if es.2 ≠ [] ∧ es.2.all Char.isDigit then
        let ev := digitsVal es.2
        .ok (if es.1 then base * ((10 ^ ev : ℕ) : ℚ)
             else base / ((10 ^ ev : ℕ) : ℚ))
      else .error .valueError
  else .error .valueError

/-- Python 2 float value as it matters to rec.py: either an ordinary number
or the nan stored for a failed model run (rec.py line 168). -/
inductive PFloat where
  | nan : PFloat
  | val : ℚ → PFloat
deriving DecidableEq

/-- Python float less-than: every comparison involving nan is false. -/
def PFloat.lt : PFloat → PFloat → Bool
  | .val a, .val b => decide (a < b)
  | _, _ => false

/-- Python float equality as used by list.index: nan == nan is false. -/
def PFloat.pyEq : PFloat → PFloat → Bool
  | .val a, .val b => decide (a = b)
  | _, _ => false

/-- Fold of Python min() over the remaining elements, carrying the current
minimum: an element replaces the carried value only when it compares
strictly below it, so a nan first element is kept and a later nan is never
selected. -/
def pyMinGo (cur : PFloat) : List PFloat → PFloat
  | [] => cur
  | x :: xs => if PFloat.lt x cur then pyMinGo x xs else pyMinGo cur xs

/-- Python min(list), raising ValueError on an empty list. -/
def pyMinE : List PFloat → Except PyErr PFloat
  | [] => .error .valueError
  | x :: xs => .ok (pyMinGo x xs)

/-- Python list.index(m) by value equality.  list.index also matches by
object identity, which differs from value equality only when m is a nan; in
rec.py the searched value is min(corresponding_phi), which is a nan only when
the first collected phi is one, and the first phi is always parsed by
float() there, so the identity case is unreachable in the modelled flow. -/
def listIndexPy (l : List PFloat) (m : PFloat) : Except PyErr Nat :=
  match l with
  | [] => .error .valueError
  | x :: xs =>
    if x.pyEq m then .ok 0 else (listIndexPy xs m).map (· + 1)

/-- Python list subscription with a nonnegative index. -/
def pyListGet (l : List ℚ) (k : Nat) : Except PyErr ℚ :=
  match l.get? k with
  | some v => .ok v
  | none => .error .indexError

/-- Phrase literals of rec.py lines 149 and 159-163. -/
def lambdaEqL : List Char := "Lambda =".toList

def noMoreLambdasL : List Char := "No more lambdas".toList

def currentL : List Char := "Current".toList

def lambdaEqLowL : List Char := "lambda =".toList

def cannotL : List Char := "cannot".toList

/-- One pass of the for-loop of rec.py lines 148-151: find the next line
containing Lambda = (case-insensitively), rewind to it, read its third
whitespace token as the lambda, then the third token of the following line
as the phi.  Both are parsed by float() directly, with no failure-sentinel
handling. -/
def readOnePair (fuel : Nat) (s : FileState) :
    Except PyErr (ℚ × ℚ × FileState) :=
  match find_phrase fuel lambdaEqL true false s with
  | .error e => .error e
  | .ok s1 =>
    match get_cleanline s1 (some 2) with
    | .error e => .error e
    | .ok (t1, s2) =>
      match parseFloat t1 with
      | .error e => .error e
      | .ok lam =>
        match get_cleanline s2 (some 2) with
        | .error e => .error e
        | .ok (t2, s3) =>
          match parseFloat t2 with
          | .error e => .error e
          | .ok phi => .ok (lam, phi, s3)

/-- The while-True loop of rec.py lines 155-170: reads a cleaned line; stops
at a No more lambdas marker, stops and rewinds at a Current marker, collects
a further (lambda, phi) candidate from a lambda = line (recording the phi as
nan when its token is the failure sentinel cannot), and silently skips any
other line.  The Python loop has no other exit: at end of input
get_cleanline keeps returning the empty string without advancing, so the
loop state repeats forever; the fuel parameter makes that visible as an
outOfFuel result for every fuel value. -/
def lamLoop : Nat → List ℚ → List PFloat → FileState →
    Except PyErr (List ℚ × List PFloat × FileState)
  | 0, _, _, _ => .error .outOfFuel
  | n + 1, ls, phis, s =>
    let last_pos := s.pos
    match get_cleanline s none with
    | .error e => .error e
    | .ok (line, s1) =>
      if containsSub noMoreLambdasL line then .ok (ls, phis, s1)
      else if containsSub currentL line then .ok (ls, phis, s1.seek last_pos)
      else if containsSub lambdaEqLowL line then
        match pyGet (pySplit line) 2 with
        | none => .error .indexError
        | some t =>
          match parseFloat t with
          | .error e => .error e
          | .ok lam =>
            match get_cleanline s1 (some 2) with
            | .error e => .error e
            | .ok (pt, s2) =>
              if pt = cannotL then
                lamLoop n (ls ++ [lam]) (phis ++ [.nan]) s2
              else
                match parseFloat pt with
                | .error e => .error e
                | .ok q => lamLoop n (ls ++ [lam]) (phis ++ [.val q]) s2
      else lamLoop n ls phis s1

/-- Result of the lambda sub-search: the collected candidate lists, the
lambda chosen at rec.py line 173 (the one appended to self.lambdas at line
174), and the file state left behind. -/
structure LamRes where
  lambdas : List ℚ
  phis : List PFloat
  lowest : ℚ
  post : FileState
deriving DecidableEq

/-- rec.py lines 141-174 (_read_lambdas): reads the first two candidates,
runs the candidate collection loop, and selects
current_lambdas[corresponding_phi.index(min(corresponding_phi))]. -/
def readLambdas (fuel : Nat) (s : FileState) : Except PyErr LamRes :=
  match readOnePair fuel s with
  | .error e => .error e
  | .ok (l0, p0, s1) =>
    match readOnePair fuel s1 with
    | .error e => .error e
    | .ok (l1, p1, s2) =>
      match lamLoop fuel [l0, l1] [.val p0, .val p1] s2 with
      | .error e => .error e
      | .ok (ls, phis, s3) =>
        match pyMinE phis with
        | .error e => .error e
        | .ok m =>
          match listIndexPy phis m with
          | .error e => .error e
          | .ok j =>
            match pyListGet ls j with
            | .error e => .error e
            | .ok low => .ok ⟨ls, phis, low, s3⟩

/-- Column label of a pandas DataFrame: either a default integer label (the
header=None case) or an explicit name. -/
inductive ColLabel where
  | idx : Nat → ColLabel
  | name : String → ColLabel
deriving DecidableEq

/-- A pandas DataFrame as far as get_DataFrame's control flow observes it:
ordered column labels over the parsed rows. -/
structure PTable where
  cols : List ColLabel
  rows : List (List String)
deriving DecidableEq

/-- Widest row of a whitespace-delimited block. -/
def maxWidth (rows : List (List String)) : Nat :=
  rows.foldl (fun a r => max a r.length) 0

/-- Model of pd.read_table over the whitespace-delimited fields of the byte
range being read.  When explicit column names are passed and some row has
more fields than there are names, the read raises IndexError — this is the
failure mode the except branch of FileReader.py lines 93-96 documents and
catches.  With header disabled and no names, pandas assigns the default
integer column labels. -/
def pdReadTable (rows : List (List String)) (names : Option (List String)) :
    Except PyErr PTable :=
  match names with
  | some ns =>
    if rows.any (fun r => ns.length < r.length) then .error .indexError
    else .ok ⟨ns.map ColLabel.name, rows⟩
  | none => .ok ⟨(List.range (maxWidth rows)).map ColLabel.idx, rows⟩

/-- pandas DataFrame.rename(columns=mapping): returns a new frame with the
mapped labels, leaving the receiver unchanged (inplace is not requested at
FileReader.py line 108). -/
def pdRename (t : PTable) (m : List (ColLabel × ColLabel)) : PTable :=
  { t with
    cols := t.cols.map (fun c =>
      match m.find? (fun p => p.1 = c) with
      | some p => p.2
      | none => c) }

/-- FileReader.py lines 76-112 (get_DataFrame), restricted to the fields its
control flow depends on: the parsed rows of the byte range (re-read from the
same range after the seek back to last_pos at line 97) and the optional
names keyword.  On IndexError with names present, the names are popped, the
header is disabled, the range is re-read, and the rename of line 108 is
computed but its result is discarded, exactly as in the source, which never
assigns it. -/
def get_DataFrame (rows : List (List String)) (names : Option (List String)) :
    Except PyErr PTable :=
  match pdReadTable rows names with
  | .ok df => .ok df
  | .error .indexError =>
    (match names with
     | some colnames =>
       match pdReadTable rows none with
       | .ok df =>
         let rename_dict := (df.cols.take colnames.length).zip
           (colnames.map ColLabel.name)
         let _dropped := pdRename df rename_dict
         .ok df
       | .error e => .error e
     | none => pdReadTable rows none)
  | .error e => .error e

/-- Data of one iteration record of a rec file, as _add_iteration reads it:
the current phi (rec.py line 115), the per-observation-group contributions
(lines 117-118), the lambda selected by the sub-search of a non-initial
iteration (line 120), and the parameter-value column (lines 125-126).  Each
element of the list handed to recRun corresponds to one further
OPTIMISATION ITERATION NO marker found by the loop of rec.py lines 81-89. -/
structure IterBlock where
  phi : ℚ
  contributions : List ℚ
  lambdaSel : ℚ
  pvalues : List ℚ
deriving DecidableEq

/-- Mutable state of the Rec object across _add_iteration calls: the
iteration counter self._iter, the phi history, the selected lambdas, the
number of stored observation-contribution columns, and the shared parameter
table as an ordered label-to-column mapping. -/
structure RecState where
  iter : Nat
  phi : List ℚ
  lambdas : List ℚ
  obs_cols : Nat
  param : List (String × List ℚ)
deriving DecidableEq

/-- rec.py lines 113-139 (_add_iteration): stores the block's phi and
contribution column, selects the column label Initial for iteration 0 and
Iteration N otherwise (lines 122-124), creates the parameter table on the
initial record and appends one column to it otherwise (lines 134-137), and
increments the iteration counter (line 139); the lambda of a non-initial
iteration was appended by _read_lambdas (line 120 with line 174). -/
def addIteration (s : RecState) (b : IterBlock) : RecState :=
  let colname := if s.iter = 0 then "Initial" else "Iteration " ++ toString s.iter
  { iter := s.iter + 1
    phi := s.phi ++ [b.phi]
    lambdas := if 0 < s.iter then s.lambdas ++ [b.lambdaSel] else s.lambdas
    obs_cols := s.obs_cols + 1
    param := if s.iter = 0 then [(colname, b.pvalues)]
             else s.param ++ [(colname, b.pvalues)] }

/-- rec.py lines 78-91: the initial record is added after INITIAL
CONDITIONS, then one record per OPTIMISATION ITERATION NO marker found, and
after the find_phrase of line 83 finally raises EOFError the counter is
corrected by one (line 91).  The its list holds the blocks introduced by the
markers the loop found, in order. -/
def recRun (init : IterBlock) (its : List IterBlock) : RecState :=
  let s0 : RecState := ⟨0, [], [], 0, []⟩
  let s1 := addIteration s0 init
  let s2 := its.foldl addIteration s1
  { s2 with iter := s2.iter - 1 }

/-- Parameter-table columns contributed by successive non-initial iteration
blocks, labelled from index n onwards. -/
def iterCols (n : Nat) : List IterBlock → List (String × List ℚ)
  | [] => []
  | b :: rest => ("Iteration " ++ toString n, b.pvalues) :: iterCols (n + 1) rest

/-- Labels Iteration n, Iteration n+1, ... for k consecutive iterations. -/
def iterColNames (n : Nat) : Nat → List String
  | 0 => []
  | k + 1 => ("Iteration " ++ toString n) :: iterColNames (n + 1) k

/-- pandas column selection self.param[label]: the first column stored under
the label (KeyError, which never fires in the modelled flows, is mapped to
an empty column). -/
def colGet (param : List (String × List ℚ)) (label : String) : List ℚ :=
  match param.find? (fun p => p.1 = label) with
  | some p => p.2
  | none => []

/-- pandas Series.var(ddof): the sum of squared deviations from the mean
divided by N - ddof. -/
def pandasVar (ddof : Nat) (xs : List ℚ) : ℚ :=
  let mean := xs.sum / (xs.length : ℚ)
  (xs.map (fun x => (x - mean) ^ 2)).sum / ((xs.length - ddof : ℕ) : ℚ)

/-- Population variance as the spec words it: divide by N, not N - 1. -/
def popVariance (xs : List ℚ) : ℚ :=
  let mean := xs.sum / (xs.length : ℚ)
  (xs.map (fun x => (x - mean) ^ 2)).sum / ((xs.length : ℕ) : ℚ)

/-- rec.py lines 176-182 (calc_variance): when iterations exist, for each i
in range(1, _iter + 1) the variance with ddof=0 of the difference between
the Iteration i column and the Initial column; when no iterations exist the
attribute is never set, modelled as none. -/
def calcVariance (s : RecState) : Option (List ℚ) :=
  if 0 < s.iter then
    some ((List.range' 1 s.iter).map (fun i =>
      pandasVar 0 (List.zipWith (fun a c => a - c)
        (colGet s.param ("Iteration " ++ toString i))
        (colGet s.param "Initial"))))
  else none

/-- Variance column of the summary table of rec.py lines 184-196: a leading
NaN (modelled as none) for the initial row followed by the per-iteration
variances; none when there were no iterations (the method only prints). -/
def summaryVarianceCol (s : RecState) : Option (List (Option ℚ)) :=
  if 0 < s.iter then (calcVariance s).map (fun vs => none :: vs.map some)
  else none

/-- One row of a composite-sensitivity table read at sen.py lines 90-92:
parameter name (the index column), parameter group, value, sensitivity. -/
structure SenRow where
  param : String
  paramGroup : String
  value : ℚ
  sensitivity : ℚ
deriving DecidableEq

/-- Composite-sensitivity table of one observation group. -/
abbrev SenTable := List SenRow

/-- Python str.strip applied to a String with the quote character set. -/
def pyStripQuotes (s : String) : String := ⟨pyStripChars ['"'] s.data⟩

/-- sen.py lines 98-105 (_strip_obs_group_name), applied to the token at
index 5 of the Composite line: the raw token is compared against the literal
info first, and the quote stripping of line 104 happens after that
comparison. -/
def stripObsGroupName (token : String) : String :=
  let group := if token = "info" then "All" else token
  pyStripQuotes group

/-- The spec's reading of the same step, for comparison: the token stripped
of quoting is the thing compared against the literal info. -/
def stripObsGroupNameClaim (token : String) : String :=
  let g := pyStripQuotes token
  if g = "info" then "All" else g

/-- One observation-group section of a sen file, as the loop of sen.py lines
81-96 consumes it: the token at index 5 of its Composite line, whether its
observations line lacks the No prefix (sen.py lines 107-114), and the table
read when it has observations. -/
structure ObsSection where
  token : String
  hasObs : Bool
  table : SenTable
deriving DecidableEq

/-- Python dict assignment self.obs_group_sens[name] = v: replaces the value
in place when the key exists, appends otherwise (insertion order is
preserved, as for Python dicts). -/
def storeGroup (d : List (String × Option SenTable)) (k : String)
    (v : Option SenTable) : List (String × Option SenTable) :=
  if d.any (fun e => e.1 = k) then
    d.map (fun e => if e.1 = k then (k, v) else e)
  else d ++ [(k, v)]

/-- sen.py lines 81-96 (_read_obs_groups): for each section, compute the
group name, store the table or the absence marker None, and stop right after
the group whose computed name is All.  Running out of sections models the
uncaught EOFError of the find_phrase at line 99. -/
def readObsGroups : Nat → List ObsSection → List (String × Option SenTable) →
    Except PyErr (List (String × Option SenTable))
  | 0, _, _ => .error .outOfFuel
  | _ + 1, [], _ => .error .eofError
  | n + 1, sec :: rest, d =>
    let gname := stripObsGroupName sec.token
    let d1 := storeGroup d gname (if sec.hasObs then some sec.table else none)
    if gname = "All" then .ok d1 else readObsGroups n rest d1

/-- pandas obsdf.loc[param, Sensitivity] at sen.py line 123: the sensitivity
of the row indexed by the parameter name, KeyError when absent. -/
def senLoc (t : SenTable) (p : String) : Except PyErr ℚ :=
  match t.find? (fun r => r.param = p) with
  | some r => .ok r.sensitivity
  | none => .error .keyError

/-- sen.py lines 116-128 (get_sens_by_param): walks the stored groups in
order, silently skipping those stored as None, and collects (group,
sensitivity) rows for the others; the resulting frame is indexed by the
group names. -/
def get_sens_by_param (d : List (String × Option SenTable)) (p : String) :
    Except PyErr (List (String × ℚ)) :=
  match d with
  | [] => .ok []
  | (_, none) :: rest => get_sens_by_param rest p
  | (k, some t) :: rest =>
    match senLoc t p with
    | .error e => .error e
    | .ok v =>
      match get_sens_by_param rest p with
      | .error e => .error e
      | .ok out => .ok ((k, v) :: out)

/-- Lambda sub-search fixture: two regular candidates, one candidate whose
model run failed (the cannot sentinel), and the older-format terminal
marker. -/
def lamFixText : String :=
  "  Lambda = 5 ----->\n    Phi = 42\n  Lambda = 2 ----->\n    Phi = 40\n  lambda = 9 :\n    Phi run cannot be done\n   No more lambdas\n"

/-- Cursor at the start of the lambda sub-search fixture. -/
def lamFixStart : FileState := ⟨lamFixText.data, 0⟩

/-- Result _read_lambdas computes on the fixture: candidates (5, 42),
(2, 40), (9, nan); the lambda paired with the minimum phi 40 is 2. -/
def lamFixRes : LamRes :=
  ⟨[5, 2, 9], [.val 42, .val 40, .nan], 2,
    ⟨lamFixText.data, lamFixText.data.length⟩⟩

/-- Truncated lambda sub-search input: the file ends right after the second
candidate, with no terminal marker and no further candidate line. -/
def lamHangText : String :=
  "  Lambda = 5 ----->\n    Phi = 42\n  Lambda = 2 ----->\n    Phi = 40\n"

/-- End-of-input state of the truncated fixture, where the candidate loop
keeps rereading the empty string. -/
def lamHangEnd : FileState := ⟨lamHangText.data, lamHangText.data.length⟩

/-- Digit characters determine digits below the decimal base. -/
lemma digitChar_inj_lt10 :
    ∀ a < 10, ∀ b < 10, Nat.digitChar a = Nat.digitChar b → a = b := by
  decide

/-- Lists of decimal digits are determined by their character renderings. -/
lemma map_digitChar_inj : ∀ l1 l2 : List ℕ, (∀ x ∈ l1, x < 10) →
    (∀ x ∈ l2, x < 10) → l1.map Nat.digitChar = l2.map Nat.digitChar →
    l1 = l2 := by
  intro l1
  induction l1 with
  | nil => intro l2 _ _ h; cases l2 <;> simp_all
  | cons a t ih =>
    intro l2 h1 h2 h
    cases l2 with
    | nil => simp_all
    | cons b t2 =>
      simp only [List.map_cons, List.cons.injEq] at h
      have ha : a = b := by
        refine digitChar_inj_lt10 a ?_ b ?_ h.1
        · exact h1 a (by simp)
        · exact h2 b (by simp)
      have ht : t = t2 := by
        refine ih t2 (fun x hx => h1 x (by simp [hx]))
          (fun x hx => h2 x (by simp [hx])) h.2
      simp [ha, ht]

/-- Core rendering loop agrees with Nat.digits when given enough fuel. -/
lemma toDigitsCore_eq_digits : ∀ (fuel n : Nat) (ds : List Char), 0 < n →
    n < 10 ^ fuel →
    Nat.toDigitsCore 10 fuel n ds =
      ((Nat.digits 10 n).map Nat.digitChar).reverse ++ ds := by
  intro fuel
  induction fuel with
  | zero => intro n ds h1 h2; simp at h2; omega
  | succ f ih =>
    intro n ds h1 h2
    simp only [Nat.toDigitsCore]
    have hdig : Nat.digits 10 n = n % 10 :: Nat.digits 10 (n / 10) :=
      Nat.digits_def' (by norm_num) h1
    by_cases hd : n / 10 = 0
    · simp [hd, hdig]
    · rw [if_neg hd]
      have hlt : n / 10 < 10 ^ f := by
        apply Nat.div_lt_of_lt_mul
        have : 10 ^ (f + 1) = 10 * 10 ^ f := by ring
        omega
      rw [ih (n / 10) (Nat.digitChar (n % 10) :: ds) (Nat.pos_of_ne_zero hd) hlt]
      rw [hdig]
      simp [List.append_assoc]

/-- Decimal rendering of a positive number, through Nat.digits. -/
lemma repr_eq_digits (n : Nat) (h : 0 < n) :
    Nat.repr n = ⟨((Nat.digits 10 n).map Nat.digitChar).reverse⟩ := by
  have hfuel : n < 10 ^ (n + 1) := by
    calc n < 10 ^ n := Nat.lt_pow_self (by norm_num) n
    _ ≤ 10 ^ (n + 1) := Nat.pow_le_pow_right (by norm_num) (by omega)
  show (Nat.toDigits 10 n).asString = _
  rw [Nat.toDigits, toDigitsCore_eq_digits (n + 1) n [] h hfuel]
  simp [List.asString]

/-- Strings with equal character data are equal. -/
lemma stringDataInj : ∀ s t : String, s.data = t.data → s = t :=
  fun _ _ h => String.ext h

/-- Decimal rendering of naturals is injective. -/
lemma natRepr_injective : Function.Injective Nat.repr := by
  intro m n h
  rcases Nat.eq_zero_or_pos m with hm | hm <;>
    rcases Nat.eq_zero_or_pos n with hn | hn
  · omega
  · exfalso
    rw [hm, repr_eq_digits n hn] at h
    have hd := congrArg String.data h
    simp only [Nat.repr] at hd
    have hlen := congrArg List.length hd
    simp only [List.length_reverse, List.length_map] at hlen
    obtain ⟨d, hdig⟩ := List.length_eq_one.mp hlen.symm
    rw [hdig] at hd
    simp only [List.map_cons, List.map_nil, List.reverse_cons,
      List.reverse_nil, List.nil_append] at hd
    have hchar : Nat.digitChar d = '0' := by
      have : (Nat.toDigits 10 0).asString.data = ['0'] := by decide
      simp only [this] at hd
      simpa using hd.symm
    have hd10 : d < 10 :=
      Nat.digits_lt_base (by norm_num) (by rw [hdig]; simp)
    have : d = 0 := digitChar_inj_lt10 d hd10 0 (by norm_num)
      (by rw [hchar]; decide)
    have hzero := Nat.ofDigits_digits 10 n
    rw [hdig, this] at hzero
    simp [Nat.ofDigits] at hzero
    omega
  · exfalso
    rw [hn, repr_eq_digits m hm] at h
    have hd := congrArg String.data h
    simp only [Nat.repr] at hd
    have hlen := congrArg List.length hd
    simp only [List.length_reverse, List.length_map] at hlen
    obtain ⟨d, hdig⟩ := List.length_eq_one.mp hlen
    rw [hdig] at hd
    simp only [List.map_cons, List.map_nil, List.reverse_cons,
      List.reverse_nil, List.nil_append] at hd
    have hchar : Nat.digitChar d = '0' := by
      have : (Nat.toDigits 10 0).asString.data = ['0'] := by decide
      simp only [this] at hd
      simpa using hd
    have hd10 : d < 10 :=
      Nat.digits_lt_base (by norm_num) (by rw [hdig]; simp)
    have : d = 0 := digitChar_inj_lt10 d hd10 0 (by norm_num)
      (by rw [hchar]; decide)
    have hzero := Nat.ofDigits_digits 10 m
    rw [hdig, this] at hzero
    simp [Nat.ofDigits] at hzero
    omega
  · rw [repr_eq_digits m hm, repr_eq_digits n hn] at h
    have hd := congrArg String.data h
    simp only at hd
    have hrev := List.reverse_injective hd
    have hmap := map_digitChar_inj (Nat.digits 10 m) (Nat.digits 10 n)
      (fun x hx => Nat.digits_lt_base (by norm_num) hx)
      (fun x hx => Nat.digits_lt_base (by norm_num) hx) hrev
    have := congrArg (Nat.ofDigits 10) hmap
    rwa [Nat.ofDigits_digits, Nat.ofDigits_digits] at this

/-- Nat toString is injective. -/
lemma natToString_inj : ∀ a b : Nat, toString a = toString b → a = b := by
  intro a b h
  exact natRepr_injective h

/-- Iteration column labels are injective in the iteration number. -/
lemma iterLabel_inj (a b : Nat)
    (h : "Iteration " ++ toString a = "Iteration " ++ toString b) : a = b := by
  apply natToString_inj
  have hd := congrArg String.data h
  simp only [String.data_append] at hd
  exact stringDataInj _ _ (List.append_cancel_left hd)

/-- No iteration column label collides with the Initial label. -/
lemma iterLabel_ne_initial (a : Nat) :
    ("Iteration " ++ toString a) ≠ "Initial" := by
  intro h
  have hd := congrArg String.data h
  simp only [String.data_append] at hd
  have hlen := congrArg List.length hd
  simp only [List.length_append, List.length_cons, List.length_nil] at hlen
  omega

/-- Folding _add_iteration over further blocks from any state that has
already stored the initial record extends the counter, the phi history and
the parameter table in lockstep. -/
lemma addIteration_foldl (its : List IterBlock) : ∀ s : RecState, 1 ≤ s.iter →
    (its.foldl addIteration s).iter = s.iter + its.length ∧
    (its.foldl addIteration s).phi = s.phi ++ its.map (fun b => b.phi) ∧
    (its.foldl addIteration s).param = s.param ++ iterCols s.iter its := by
  induction its with
  | nil => intro s _; simp [iterCols]
  | cons b rest ih =>
    intro s hs
    have hne : ¬ s.iter = 0 := by omega
    obtain ⟨h1, h2, h3⟩ := ih (addIteration s b) (by simp [addIteration])
    simp only [List.foldl_cons]
    refine ⟨?_, ?_, ?_⟩
    · rw [h1]; simp [addIteration, List.length_cons]; omega
    · rw [h2]; simp [addIteration, List.map_cons]
    · rw [h3]
      simp only [addIteration, hne, if_neg, ite_false, iterCols]
      rw [List.append_assoc]
      simp

/-- Shape of the extractor state recRun produces: the corrected counter, the
phi history headed by the initial phi, and the parameter table headed by the
Initial column. -/
lemma recRun_spec (init : IterBlock) (its : List IterBlock) :
    (recRun init its).iter = its.length ∧
    (recRun init its).phi = init.phi :: its.map (fun b => b.phi) ∧
    (recRun init its).param = ("Initial", init.pvalues) :: iterCols 1 its := by
  have hstep : addIteration ⟨0, [], [], 0, []⟩ init =
      ⟨1, [init.phi], [], 1, [("Initial", init.pvalues)]⟩ := by
    simp [addIteration]
  obtain ⟨h1, h2, h3⟩ := addIteration_foldl its
    (⟨1, [init.phi], [], 1, [("Initial", init.pvalues)]⟩ : RecState) (by simp)
  simp only [recRun]
  rw [hstep]
  refine ⟨?_, ?_, ?_⟩
  · show (its.foldl addIteration _).iter - 1 = its.length
    rw [h1]
    simp
  · show (its.foldl addIteration _).phi = _
    rw [h2]
    simp
  · show (its.foldl addIteration _).param = _
    rw [h3]
    simp

/-- Labels of the non-initial parameter columns. -/
lemma iterCols_map_fst : ∀ (its : List IterBlock) (n : Nat),
    (iterCols n its).map Prod.fst = iterColNames n its.length := by
  intro its
  induction its with
  | nil => intro n; simp [iterCols, iterColNames]
  | cons b rest ih => intro n; simp [iterCols, iterColNames, ih]

/-- Element lookup in List.range'. -/
lemma get?_range'_own : ∀ (n s i : Nat), i < n →
    (List.range' s n).get? i = some (s + i) := by
  intro n
  induction n with
  | zero => intro s i h; omega
  | succ m ih =>
    intro s i h
    cases i with
    | zero => simp [List.range']
    | succ j =>
      have := ih (s + 1) j (by omega)
      simp only [List.range', List.get?_cons_succ, this]
      congr 1
      omega

/-- Column selection hits the Initial column at the head of the table. -/
lemma colGet_initial (v : List ℚ) (rest : List (String × List ℚ)) :
    colGet (("Initial", v) :: rest) "Initial" = v := by
  simp [colGet, List.find?]

/-- Column selection for an iteration label skips the Initial column and
finds the unique matching iteration column. -/
lemma colGet_iterCols : ∀ (its : List IterBlock) (n i : Nat) (b : IterBlock),
    n ≤ i → its.get? (i - n) = some b →
    colGet (iterCols n its) ("Iteration " ++ toString i) = b.pvalues := by
  intro its
  induction its with
  | nil => intro n i b _ hb; simp at hb
  | cons b0 rest ih =>
    intro n i b hn hb
    by_cases hi : i = n
    · subst hi
      simp only [Nat.sub_self, List.get?_cons_zero, Option.some.injEq] at hb
      subst hb
      simp [iterCols, colGet, List.find?]
    · have hlt : n < i := by omega
      have hne : ¬ ("Iteration " ++ toString n = "Iteration " ++ toString i) :=
        fun hcol => hi (iterLabel_inj n i hcol).symm
      have hb' : rest.get? (i - (n + 1)) = some b := by
        have : i - n = (i - (n + 1)) + 1 := by omega
        rw [this] at hb
        simpa using hb
      have := ih (n + 1) i b (by omega) hb'
      simp only [iterCols, colGet] at this ⊢
      rw [List.find?_cons_of_neg]
      · exact this
      · simpa using hne

/-- pandas var with ddof zero is the population variance of the spec. -/
lemma pandasVar_zero (xs : List ℚ) : pandasVar 0 xs = popVariance xs := by
  simp [pandasVar, popVariance]

/-- Column selection skips a non-matching head column. -/
lemma colGet_cons_ne (k : String) (v : List ℚ) (rest : List (String × List ℚ))
    (label : String) (h : ¬ k = label) :
    colGet ((k, v) :: rest) label = colGet rest label := by
  simp only [colGet]
  rw [List.find?_cons_of_neg]
  simpa using h

/-- C3: for every valid optimization log whose iteration loop terminates by
failing to find the next OPTIMISATION ITERATION NO marker, the reported
iteration count (after the final correction of rec.py line 91) equals the
number of markers found (the length of its), which is one fewer than the
number of records appended (the length of the phi history, initial record
included), and the shared parameter table has exactly one Initial column
followed by one Iteration N column per non-initial iteration. -/
theorem rec_iteration_count_matches_markers (init : IterBlock)
    (its : List IterBlock) :
    (recRun init its).iter = its.length ∧
    (recRun init its).phi.length = its.length + 1 ∧
    (recRun init its).param.map Prod.fst = "Initial" :: iterColNames 1 its.length := by
  obtain ⟨h1, h2, h3⟩ := recRun_spec init its
  refine ⟨h1, ?_, ?_⟩
  · rw [h2]; simp
  · rw [h3]; simp [iterCols_map_fst]

/-- C6: for every completed non-initial iteration i, the variance stored by
calc_variance for iteration i is the population variance (divisor N) of the
per-parameter difference between iteration i's column and the Initial
column, and the variance entry of the initial row of the summary table is
NaN (modelled as none). -/
theorem rec_calc_variance_population (init : IterBlock) (its : List IterBlock)
    (i : Nat) (b : IterBlock) (h1 : 1 ≤ i) (hb : its.get? (i - 1) = some b) :
    (∃ vs, calcVariance (recRun init its) = some vs ∧
      vs.get? (i - 1) = some (popVariance
        (List.zipWith (fun a c => a - c) b.pvalues init.pvalues))) ∧
    (∃ tail, summaryVarianceCol (recRun init its) = some (none :: tail)) := by
  obtain ⟨hiter, _, hparam⟩ := recRun_spec init its
  obtain ⟨hlen, -⟩ := List.get?_eq_some.mp hb
  have hpos : 0 < (recRun init its).iter := by omega
  have hcv : calcVariance (recRun init its) =
      some ((List.range' 1 its.length).map (fun j =>
        pandasVar 0 (List.zipWith (fun a c => a - c)
          (colGet (("Initial", init.pvalues) :: iterCols 1 its)
            ("Iteration " ++ toString j))
          (colGet (("Initial", init.pvalues) :: iterCols 1 its) "Initial")))) := by
    rw [calcVariance, if_pos hpos, hiter, hparam]
  refine ⟨⟨_, hcv, ?_⟩, ⟨_, by rw [summaryVarianceCol, if_pos hpos, hcv]; rfl⟩⟩
  rw [List.get?_map, get?_range'_own its.length 1 (i - 1) hlen]
  have hi : 1 + (i - 1) = i := by omega
  simp only [Option.map_some', hi]
  rw [colGet_cons_ne "Initial" init.pvalues _ _
    (fun hcol => iterLabel_ne_initial i hcol.symm)]
  rw [colGet_iterCols its 1 i b (by omega) (by simpa using hb)]
  rw [colGet_initial, pandasVar_zero]

/-- Witness for C6 at a concrete two-parameter, one-iteration run. -/
theorem rec_calc_variance_population_witness :
    (∃ vs, calcVariance (recRun ⟨10, [10], 0, [1, 2]⟩ [⟨4, [4], 2, [3, 5]⟩]) =
        some vs ∧
      vs.get? 0 = some (popVariance
        (List.zipWith (fun a c => a - c) [(3 : ℚ), 5] [1, 2]))) ∧
    (∃ tail, summaryVarianceCol
        (recRun ⟨10, [10], 0, [1, 2]⟩ [⟨4, [4], 2, [3, 5]⟩]) =
      some (none :: tail)) :=
  rec_calc_variance_population ⟨10, [10], 0, [1, 2]⟩ [⟨4, [4], 2, [3, 5]⟩] 1
    ⟨4, [4], 2, [3, 5]⟩ (by norm_num) rfl

/-- Counting loop of get_datadist equals a takeWhile over the line split. -/
lemma ddCountLines_eq_takeWhile : ∀ ls : List (List Char),
    ddCountLines ls =
      (ls.takeWhile (fun line => !(ddBreakA line || ddBreakB line))).length := by
  intro ls
  induction ls with
  | nil => simp [ddCountLines]
  | cons l rest ih =>
    cases ha : ddBreakA l <;> cases hb2 : ddBreakB l <;>
      simp [ddCountLines, List.takeWhile_cons, ha, hb2, ih, Nat.add_comm]

/-- C9: get_datadist returns the number of consecutive lines from the current
position that trigger neither break test (comment prefix C, c, * or blank
after stripping carriage returns, newlines and spaces), stopping at the
first such line or end of input, and the state it returns carries the same
byte offset as the state it was given (the probe is non-destructive). -/
theorem filereader_get_datadist_props (s : FileState) :
    (get_datadist s).1 = ((linesOf (s.content.drop s.pos)).takeWhile
      (fun line => !(ddBreakA line || ddBreakB line))).length ∧
    (get_datadist s).2.pos = s.pos ∧ (get_datadist s).2 = s := by
  refine ⟨?_, rfl, rfl⟩
  exact ddCountLines_eq_takeWhile _

/-- C10: at or past end of input, get_cleanline with no field index succeeds
with empty text and an unchanged state (so repeated calls keep doing the
same), while get_cleanline with any field index raises IndexError. -/
theorem filereader_get_cleanline_at_eof (s : FileState)
    (h : s.content.length ≤ s.pos) :
    get_cleanline s none = .ok ([], s) ∧
    (∀ i : Int, get_cleanline s (some i) = .error .indexError) := by
  have hdrop : s.content.drop s.pos = [] := List.drop_eq_nil_of_le h
  have hline : s.readline = ([], s) := by
    simp [FileState.readline, hdrop, takeLine]
  constructor
  · simp [get_cleanline, hline, pyStrip, stripBy]
  · intro i
    simp only [get_cleanline, hline, pyStrip, stripBy, pySplit, splitGo,
      List.dropWhile_nil, List.reverse_nil, ite_true]
    rw [show pyGet [] i = none by simp [pyGet]]

/-- Witness for C10 at a concrete exhausted state. -/
theorem filereader_get_cleanline_at_eof_witness :
    get_cleanline ⟨['a'], 1⟩ none = .ok ([], ⟨['a'], 1⟩) ∧
    get_cleanline ⟨['a'], 1⟩ (some (-1)) = .error .indexError :=
  ⟨(filereader_get_cleanline_at_eof ⟨['a'], 1⟩ (by norm_num)).1,
   (filereader_get_cleanline_at_eof ⟨['a'], 1⟩ (by norm_num)).2 (-1)⟩

/-- C5 (code bug): on the file consisting of a blank line followed by a
final non-blank line, nextline raises EOFError even though a line with
non-whitespace content remains (the eof_check of FileReader.py line 129
fires right after the final line is read, before its content is
considered). -/
theorem filereader_nextline_eof_bug :
    nextline 10 ⟨"\nX\n".data, 0⟩ = .error .eofError ∧
    pyStrip (takeLine (("\nX\n").data.drop 1)) ≠ [] := by
  exact ⟨by decide, by decide⟩

/-- C4 (code bug): when a row has more fields than the supplied column
names, get_DataFrame retries with the header disabled but returns the frame
with the default integer labels: the rename of FileReader.py line 108 is
computed and dropped, so the returned first N columns are not the N supplied
names, although the discarded rename result does carry them. -/
theorem get_DataFrame_rename_discarded :
    get_DataFrame [["1", "2", "3"]] (some ["X", "Y"]) =
      .ok ⟨[ColLabel.idx 0, ColLabel.idx 1, ColLabel.idx 2], [["1", "2", "3"]]⟩ ∧
    ([ColLabel.idx 0, ColLabel.idx 1, ColLabel.idx 2].take 2 ≠
      [ColLabel.name "X", ColLabel.name "Y"]) ∧
    pdRename ⟨[ColLabel.idx 0, ColLabel.idx 1, ColLabel.idx 2], [["1", "2", "3"]]⟩
      (([ColLabel.idx 0, ColLabel.idx 1, ColLabel.idx 2].take 2).zip
        (["X", "Y"].map ColLabel.name)) =
      ⟨[ColLabel.name "X", ColLabel.name "Y", ColLabel.idx 2], [["1", "2", "3"]]⟩ := by
  refine ⟨by decide, by decide, by decide⟩

/-- Dict assignment appends when the key is fresh. -/
lemma storeGroup_fresh (d : List (String × Option SenTable)) (k : String)
    (v : Option SenTable) (h : ∀ e ∈ d, e.1 ≠ k) :
    storeGroup d k v = d ++ [(k, v)] := by
  unfold storeGroup
  rw [if_neg]
  intro hany
  obtain ⟨e, he, heq⟩ := List.any_eq_true.mp hany
  exact h e he (by simpa using heq)

/-- Behavior of the observation-group loop up to and including the first
section whose computed group name is All, from any accumulator whose keys
avoid the incoming group names. -/
lemma readObsGroups_go : ∀ (k : Nat) (secs : List ObsSection) (fuel : Nat)
    (d : List (String × Option SenTable)),
    k < fuel → k < secs.length →
    (∀ j sec, j < k → secs.get? j = some sec →
      stripObsGroupName sec.token ≠ "All") →
    (∀ sec, secs.get? k = some sec → stripObsGroupName sec.token = "All") →
    (d.map Prod.fst ++ (secs.take (k + 1)).map
      (fun sec => stripObsGroupName sec.token)).Nodup →
    readObsGroups fuel secs d = .ok (d ++ (secs.take (k + 1)).map
      (fun sec => (stripObsGroupName sec.token,
        if sec.hasObs then some sec.table else none))) := by
  intro k
  induction k with
  | zero =>
    intro secs fuel d hfuel hlen hfirst hall hnd
    obtain ⟨n, rfl⟩ : ∃ n, fuel = n + 1 := ⟨fuel - 1, by omega⟩
    cases secs with
    | nil => simp at hlen
    | cons sec rest =>
      have hA : stripObsGroupName sec.token = "All" := hall sec rfl
      have hfresh : ∀ e ∈ d, e.1 ≠ stripObsGroupName sec.token := by
        intro e he hcol
        rw [List.nodup_append] at hnd
        exact hnd.2.2 (List.mem_map_of_mem Prod.fst he) (by rw [hcol]; simp)
      simp only [readObsGroups, hA, if_pos]
      rw [storeGroup_fresh d _ _ (by rw [hA] at hfresh; exact hfresh)]
      simp [hA]
  | succ k ih =>
    intro secs fuel d hfuel hlen hfirst hall hnd
    obtain ⟨n, rfl⟩ : ∃ n, fuel = n + 1 := ⟨fuel - 1, by omega⟩
    cases secs with
    | nil => simp at hlen
    | cons sec rest =>
      have hne : stripObsGroupName sec.token ≠ "All" :=
        hfirst 0 sec (by omega) rfl
      have hfresh : ∀ e ∈ d, e.1 ≠ stripObsGroupName sec.token := by
        intro e he hcol
        rw [List.nodup_append] at hnd
        exact hnd.2.2 (List.mem_map_of_mem Prod.fst he)
          (by rw [hcol]; simp [List.take])
      simp only [readObsGroups, if_neg hne]
      rw [storeGroup_fresh d _ _ hfresh]
      have hrec := ih rest n (d ++ [(stripObsGroupName sec.token,
          if sec.hasObs then some sec.table else none)])
        (by omega) (by simpa using hlen)
        (fun j s2 hj hg => hfirst (j + 1) s2 (by omega) (by simpa using hg))
        (fun s2 hg => hall s2 (by simpa using hg))
        (by
          simp only [List.map_append, List.map_cons, List.take] at hnd ⊢
          rw [List.append_assoc]
          simpa using hnd)
      rw [hrec]
      simp [List.take]

/-- C7 counterexample: the quoted token whose quote-stripped form is the
word info is not treated as the sentinel by _strip_obs_group_name, because
the source compares the raw token before stripping the quotes, while the
claim compares the stripped token. -/
theorem sen_group_name_counterexample :
    stripObsGroupName "\"info\"" = "info" ∧
    stripObsGroupNameClaim "\"info\"" = "All" ∧
    ("info" : String) ≠ "All" :=
  ⟨by decide, by decide, by decide⟩

/-- C7 (amended): the raw Composite-line token is compared against the
literal info before quote stripping (so the unquoted token info maps to the
logical name All, while a quoted token whose stripped form is info does
not); the group whose computed name is All is processed and stored like any
other (table or absence marker), and the phase terminates exactly once,
immediately after processing that group: the stored mapping is exactly the
first sections up to and including the first All group. -/
theorem sen_obs_groups_sentinel_and_termination (fuel : Nat)
    (secs : List ObsSection) (k : Nat) (hfuel : k < fuel)
    (hlen : k < secs.length)
    (hfirst : ∀ j sec, j < k → secs.get? j = some sec →
      stripObsGroupName sec.token ≠ "All")
    (hall : ∀ sec, secs.get? k = some sec → stripObsGroupName sec.token = "All")
    (hnd : ((secs.take (k + 1)).map
      (fun sec => stripObsGroupName sec.token)).Nodup) :
    stripObsGroupName "info" = "All" ∧
    readObsGroups fuel secs [] = .ok ((secs.take (k + 1)).map
      (fun sec => (stripObsGroupName sec.token,
        if sec.hasObs then some sec.table else none))) :=
  ⟨by decide, by
    simpa using readObsGroups_go k secs fuel [] hfuel hlen hfirst hall
      (by simpa using hnd)⟩

/-- Witness for C7 at a concrete two-group sensitivity run ending in the
info sentinel. -/
theorem sen_obs_groups_witness :
    stripObsGroupName "info" = "All" ∧
    readObsGroups 3 [⟨"\"grp1\"", true, [⟨"p1", "g", 1, 2⟩]⟩,
        ⟨"info", false, []⟩] [] =
      .ok [("grp1", some [⟨"p1", "g", 1, 2⟩]), ("All", none)] :=
  sen_obs_groups_sentinel_and_termination 3
    [⟨"\"grp1\"", true, [⟨"p1", "g", 1, 2⟩]⟩, ⟨"info", false, []⟩] 1
    (by norm_num) (by norm_num)
    (by
      intro j sec hj hget
      have hj0 : j = 0 := by omega
      subst hj0
      simp only [List.get?_cons_zero, Option.some.injEq] at hget
      subst hget
      decide)
    (by
      intro sec hget
      simp only [List.get?_cons_succ, List.get?_cons_zero,
        Option.some.injEq] at hget
      subst hget
      decide)
    (by decide)

/-- C8: whenever the parameter is present in every group table that is
stored (groups stored as None are exempt), the per-parameter accessor
succeeds and the group index of its result is exactly the list of groups
whose stored entry is a table; absence-marker groups are silently excluded
and cause no failure. -/
theorem sen_get_sens_by_param_groups (d : List (String × Option SenTable))
    (p : String)
    (h : ∀ k t, (k, some t) ∈ d → ∃ r ∈ t, r.param = p) :
    ∃ out, get_sens_by_param d p = .ok out ∧
      out.map Prod.fst = (d.filter (fun e => e.2.isSome)).map Prod.fst := by
  induction d with
  | nil => exact ⟨[], rfl, rfl⟩
  | cons e rest ih =>
    obtain ⟨out, hout, hmap⟩ :=
      ih (fun k t hm => h k t (List.mem_cons_of_mem _ hm))
    match e with
    | (k0, none) =>
      refine ⟨out, ?_, ?_⟩
      · simpa [get_sens_by_param] using hout
      · simpa [List.filter] using hmap
    | (k0, some t0) =>
      obtain ⟨r, hrmem, hrp⟩ := h k0 t0 (List.mem_cons_self _ _)
      obtain ⟨r0, hfind⟩ : ∃ r0, t0.find? (fun row => row.param = p) = some r0 := by
        have : (t0.find? (fun row => row.param = p)).isSome := by
          rw [List.find?_isSome]
          exact ⟨r, hrmem, by simpa using hrp⟩
        exact Option.isSome_iff_exists.mp this
      refine ⟨(k0, r0.sensitivity) :: out, ?_, ?_⟩
      · simp only [get_sens_by_param, senLoc, hfind, hout]
      · simpa [List.filter] using hmap

/-- Witness for C8 at a concrete mapping with one absent group. -/
theorem sen_get_sens_by_param_witness :
    ∃ out, get_sens_by_param ([("g1", some [⟨"p1", "g", 1, 5⟩]), ("g2", none),
        ("All", some [⟨"p1", "g", 2, 7⟩])] :
          List (String × Option SenTable)) "p1" = .ok out ∧
      out.map Prod.fst = (([("g1", some [⟨"p1", "g", 1, 5⟩]), ("g2", none),
        ("All", some [⟨"p1", "g", 2, 7⟩])] :
          List (String × Option SenTable)).filter
          (fun e => e.2.isSome)).map Prod.fst :=
  sen_get_sens_by_param_groups
    [("g1", some [⟨"p1", "g", 1, 5⟩]), ("g2", none),
      ("All", some [⟨"p1", "g", 2, 7⟩])] "p1"
    (by
      intro k t hm
      simp only [List.mem_cons, List.not_mem_nil, or_false,
        Prod.mk.injEq] at hm
      rcases hm with ⟨hk, ht⟩ | ⟨hk, ht⟩ | ⟨hk, ht⟩
      · cases ht
        exact ⟨⟨"p1", "g", 1, 5⟩, by simp, rfl⟩
      · cases ht
      · cases ht
        exact ⟨⟨"p1", "g", 2, 7⟩, by simp, rfl⟩)

/-- The candidate loop only appends to the two accumulators, and appends to
both in lockstep. -/
lemma lamLoop_append : ∀ (fuel : Nat) (ls : List ℚ) (phis : List PFloat)
    (s : FileState) (out : List ℚ × List PFloat × FileState),
    lamLoop fuel ls phis s = .ok out →
    ∃ el ep, out.1 = ls ++ el ∧ out.2.1 = phis ++ ep ∧
      el.length = ep.length := by
  intro fuel
  induction fuel with
  | zero => intro ls phis s out h; simp [lamLoop] at h
  | succ n ih =>
    intro ls phis s out h
    simp only [lamLoop] at h
    cases hgc : get_cleanline s none with
    | error e => rw [hgc] at h; exact Except.noConfusion h
    | ok pr =>
      obtain ⟨line, s1⟩ := pr
      simp only [hgc] at h
      by_cases h1 : containsSub noMoreLambdasL line = true
      · rw [if_pos h1] at h
        cases h
        exact ⟨[], [], by simp, by simp, rfl⟩
      · rw [if_neg h1] at h
        by_cases h2 : containsSub currentL line = true
        · rw [if_pos h2] at h
          cases h
          exact ⟨[], [], by simp, by simp, rfl⟩
        · rw [if_neg h2] at h
          by_cases h3 : containsSub lambdaEqLowL line = true
          · rw [if_pos h3] at h
            cases hpg : pyGet (pySplit line) 2 with
            | none => simp only [hpg] at h; exact Except.noConfusion h
            | some t =>
              simp only [hpg] at h
              cases hpf : parseFloat t with
              | error e => simp only [hpf] at h; exact Except.noConfusion h
              | ok lam =>
                simp only [hpf] at h
                cases hg2 : get_cleanline s1 (some 2) with
                | error e => simp only [hg2] at h; exact Except.noConfusion h
                | ok pr2 =>
                  obtain ⟨pt, s2⟩ := pr2
                  simp only [hg2] at h
                  by_cases hpt : pt = cannotL
                  · rw [if_pos hpt] at h
                    obtain ⟨el, ep, he1, he2, he3⟩ := ih _ _ _ _ h
                    exact ⟨lam :: el, .nan :: ep, by simpa using he1,
                      by simpa using he2, by simpa using he3⟩
                  · rw [if_neg hpt] at h
                    cases hpf2 : parseFloat pt with
                    | error e => simp only [hpf2] at h; exact Except.noConfusion h
                    | ok q =>
                      simp only [hpf2] at h
                      obtain ⟨el, ep, he1, he2, he3⟩ := ih _ _ _ _ h
                      exact ⟨lam :: el, .val q :: ep, by simpa using he1,
                        by simpa using he2, by simpa using he3⟩
          · rw [if_neg h3] at h
            obtain ⟨el, ep, he1, he2, he3⟩ := ih _ _ _ _ h
            exact ⟨el, ep, he1, he2, he3⟩

/-- The Python min fold started at an ordinary number returns an ordinary
number that bounds every ordinary number in the list from below and is
either the starting value or an element of the list: in particular a nan
candidate is never the result. -/
lemma pyMinGo_spec : ∀ (xs : List PFloat) (c : ℚ),
    ∃ mq : ℚ, pyMinGo (.val c) xs = .val mq ∧ mq ≤ c ∧
      (PFloat.val mq = .val c ∨ PFloat.val mq ∈ xs) ∧
      ∀ x ∈ xs, ∀ q : ℚ, x = .val q → mq ≤ q := by
  intro xs
  induction xs with
  | nil => intro c; exact ⟨c, rfl, le_refl c, .inl rfl, by simp⟩
  | cons x rest ih =>
    intro c
    cases x with
    | nan =>
      obtain ⟨mq, h1, h2, h3, h4⟩ := ih c
      refine ⟨mq, by simpa [pyMinGo, PFloat.lt] using h1, h2, ?_, ?_⟩
      · rcases h3 with h3 | h3
        · exact .inl h3
        · exact .inr (List.mem_cons_of_mem _ h3)
      · intro x hx q hq
        rcases List.mem_cons.mp hx with rfl | hx
        · cases hq
        · exact h4 x hx q hq
    | val b =>
      by_cases hlt : b < c
      · obtain ⟨mq, h1, h2, h3, h4⟩ := ih b
        have hstep : pyMinGo (.val c) (.val b :: rest) = pyMinGo (.val b) rest := by
          simp [pyMinGo, PFloat.lt, hlt]
        refine ⟨mq, by rw [hstep, h1], le_trans h2 (le_of_lt hlt), ?_, ?_⟩
        · rcases h3 with h3 | h3
          · exact .inr (by rw [h3]; exact List.mem_cons_self _ _)
          · exact .inr (List.mem_cons_of_mem _ h3)
        · intro x hx q hq
          rcases List.mem_cons.mp hx with rfl | hx
          · cases hq; exact h2
          · exact h4 x hx q hq
      · obtain ⟨mq, h1, h2, h3, h4⟩ := ih c
        have hstep : pyMinGo (.val c) (.val b :: rest) = pyMinGo (.val c) rest := by
          simp [pyMinGo, PFloat.lt, hlt]
        refine ⟨mq, by rw [hstep, h1], h2, ?_, ?_⟩
        · rcases h3 with h3 | h3
          · exact .inl h3
          · exact .inr (List.mem_cons_of_mem _ h3)
        · intro x hx q hq
          rcases List.mem_cons.mp hx with rfl | hx
          · cases hq; exact le_trans h2 (le_of_not_lt hlt)
          · exact h4 x hx q hq

/-- list.index finds an ordinary number that occurs in the list, and returns
a position actually holding it. -/
lemma listIndexPy_finds : ∀ (l : List PFloat) (mq : ℚ), PFloat.val mq ∈ l →
    ∃ j, listIndexPy l (.val mq) = .ok j ∧ l.get? j = some (.val mq) := by
  intro l
  induction l with
  | nil => intro mq h; simp at h
  | cons x rest ih =>
    intro mq hmem
    by_cases he : x.pyEq (.val mq) = true
    · refine ⟨0, by simp [listIndexPy, he], ?_⟩
      cases x with
      | nan => simp [PFloat.pyEq] at he
      | val a =>
        have : a = mq := by simpa [PFloat.pyEq] using he
        rw [this]
        rfl
    · have hx : x ≠ .val mq := by
        intro hh
        rw [hh] at he
        simp [PFloat.pyEq] at he
      have hmem' : PFloat.val mq ∈ rest := by
        rcases List.mem_cons.mp hmem with hh | hh
        · exact absurd hh.symm hx
        · exact hh
      obtain ⟨j, hj1, hj2⟩ := ih mq hmem'
      refine ⟨j + 1, ?_, by simpa using hj2⟩
      simp only [listIndexPy]
      rw [if_neg he, hj1]
      rfl

/-- C1: whenever the lambda sub-search completes, some collected phi is an
ordinary number (so the all-NaN situation never arises silently: with every
phi NaN the sub-search could not have completed, because the first two phis
are parsed by float(), which raises on the failure sentinel), and the
selected lambda — the one appended to the lambda history — is the one
paired, at the same candidate position, with a non-NaN phi that is at most
every non-NaN phi collected. -/
theorem rec_lambda_selection_min_nonnan (fuel : Nat) (s : FileState)
    (r : LamRes) (h : readLambdas fuel s = .ok r) :
    (∃ φ ∈ r.phis, φ ≠ PFloat.nan) ∧
    ∃ j mq, r.phis.get? j = some (.val mq) ∧
      r.lambdas.get? j = some r.lowest ∧
      ∀ k q, r.phis.get? k = some (.val q) → mq ≤ q := by
  simp only [readLambdas] at h
  cases h1 : readOnePair fuel s with
  | error e => rw [h1] at h; exact Except.noConfusion h
  | ok t1 =>
    obtain ⟨l0, p0, s1⟩ := t1
    simp only [h1] at h
    cases h2 : readOnePair fuel s1 with
    | error e => simp only [h2] at h; exact Except.noConfusion h
    | ok t2 =>
      obtain ⟨l1, p1, s2⟩ := t2
      simp only [h2] at h
      cases h3 : lamLoop fuel [l0, l1] [.val p0, .val p1] s2 with
      | error e => simp only [h3] at h; exact Except.noConfusion h
      | ok t3 =>
        obtain ⟨ls, phis, s3⟩ := t3
        simp only [h3] at h
        obtain ⟨el, ep, hel, hep, hlen⟩ := lamLoop_append _ _ _ _ _ h3
        have hel' : ls = [l0, l1] ++ el := hel
        have hep' : phis = [PFloat.val p0, PFloat.val p1] ++ ep := hep
        subst hel' hep'
        obtain ⟨mq, hm1, hm2, hm3, hm4⟩ := pyMinGo_spec (PFloat.val p1 :: ep) p0
        have hminE : pyMinE ([PFloat.val p0, PFloat.val p1] ++ ep) =
            .ok (.val mq) := by
          show Except.ok (pyMinGo (.val p0) (PFloat.val p1 :: ep)) = _
          rw [hm1]
        simp only [hminE] at h
        have hmem : PFloat.val mq ∈ ([PFloat.val p0, PFloat.val p1] ++ ep) := by
          rcases hm3 with h' | h'
          · rw [h']; simp
          · simp only [List.cons_append, List.nil_append]
            exact List.mem_cons_of_mem _ h'
        obtain ⟨j, hj1, hj2⟩ := listIndexPy_finds _ mq hmem
        simp only [hj1] at h
        obtain ⟨hjlt, -⟩ := List.get?_eq_some.mp hj2
        have hjlt' : j < ([l0, l1] ++ el).length := by
          simp only [List.length_append] at hjlt ⊢
          simpa [hlen] using hjlt
        obtain ⟨lam, hlam⟩ : ∃ lam, ([l0, l1] ++ el).get? j = some lam := by
          rw [List.get?_eq_get hjlt']
          exact ⟨_, rfl⟩
        have hplg : pyListGet ([l0, l1] ++ el) j = .ok lam := by
          have hlam2 : (l0 :: l1 :: el)[j]? = some lam := by
            simpa using hlam
          simp [pyListGet, hlam2]
        simp only [hplg] at h
        cases h
        constructor
        · exact ⟨.val p0, by simp, by simp⟩
        · refine ⟨j, mq, hj2, hlam, ?_⟩
          intro k q hk
          have hqmem : PFloat.val q ∈ ([PFloat.val p0, PFloat.val p1] ++ ep) :=
            List.get?_mem hk
          have hqmem2 : PFloat.val q ∈ PFloat.val p0 :: PFloat.val p1 :: ep :=
            hqmem
          rcases List.mem_cons.mp hqmem2 with h' | h'
          · injection h' with hq
            rw [hq]
            exact hm2
          · exact hm4 _ h' q rfl

set_option maxRecDepth 4000 in
/-- Witness for C1 on the lambda fixture: the run collects phis 42, 40, nan
and appends the lambda 2 paired with the minimum non-NaN phi 40. -/
theorem rec_lambda_selection_witness :
    (∃ φ ∈ lamFixRes.phis, φ ≠ PFloat.nan) ∧
    ∃ j mq, lamFixRes.phis.get? j = some (.val mq) ∧
      lamFixRes.lambdas.get? j = some lamFixRes.lowest ∧
      ∀ k q, lamFixRes.phis.get? k = some (.val q) → mq ≤ q :=
  rec_lambda_selection_min_nonnan 32 lamFixStart lamFixRes (by decide)

/-- A successful phrase search is stable under extra fuel. -/
lemma findPhraseLoop_mono (phrase : List Char) (cs rwd : Bool) :
    ∀ (k : Nat) (s r : FileState), findPhraseLoop phrase cs rwd k s = .ok r →
      findPhraseLoop phrase cs rwd (k + 1) s = .ok r := by
  intro k
  induction k with
  | zero => intro s r h; simp [findPhraseLoop] at h
  | succ n ih =>
    intro s r h
    simp only [findPhraseLoop] at h ⊢
    by_cases hc :
      containsSub phrase (if cs then s.readline.1 else lowerL s.readline.1) = true
    · rw [if_pos hc] at h ⊢
      exact h
    · rw [if_neg hc] at h ⊢
      by_cases he : s.readline.2.eof_check = true
      · rw [if_pos he] at h
        exact Except.noConfusion h
      · rw [if_neg he] at h ⊢
        exact ih _ _ h

/-- A successful phrase search is stable under any amount of extra fuel. -/
lemma findPhraseLoop_add (phrase : List Char) (cs rwd : Bool) :
    ∀ (j k : Nat) (s r : FileState), findPhraseLoop phrase cs rwd k s = .ok r →
      findPhraseLoop phrase cs rwd (k + j) s = .ok r := by
  intro j
  induction j with
  | zero => intro k s r h; exact h
  | succ m ih =>
    intro k s r h
    exact findPhraseLoop_mono phrase cs rwd (k + m) s r (ih k s r h)

/-- At the end of the truncated fixture the candidate loop makes no progress
and exhausts every fuel budget: the Python loop never terminates there. -/
lemma lamLoop_hang : ∀ fuel : Nat,
    lamLoop fuel [5, 2] [.val 42, .val 40] lamHangEnd = .error .outOfFuel := by
  intro fuel
  induction fuel with
  | zero => rfl
  | succ n ih =>
    have hstep : lamLoop (n + 1) [5, 2] [.val 42, .val 40] lamHangEnd =
        lamLoop n [5, 2] [.val 42, .val 40] lamHangEnd := rfl
    rw [hstep, ih]

/-- First candidate pair of the truncated fixture, for any fuel margin. -/
lemma readOnePair_hang1 : ∀ n : Nat,
    readOnePair (n + 4) ⟨lamHangText.data, 0⟩ =
      .ok (5, 42, skiplines ⟨lamHangText.data, 0⟩ 2) := by
  intro n
  have hfp : find_phrase (n + 4) lambdaEqL true false ⟨lamHangText.data, 0⟩ =
      .ok ⟨lamHangText.data, 0⟩ := by
    show findPhraseLoop (lowerL lambdaEqL) false true (n + 4)
      ⟨lamHangText.data, 0⟩ = _
    rw [Nat.add_comm n 4]
    exact findPhraseLoop_add _ false true n 4 _ _ (by decide)
  simp only [readOnePair, hfp]
  decide

/-- Second candidate pair of the truncated fixture, for any fuel margin. -/
lemma readOnePair_hang2 : ∀ n : Nat,
    readOnePair (n + 4) (skiplines ⟨lamHangText.data, 0⟩ 2) =
      .ok (2, 40, skiplines ⟨lamHangText.data, 0⟩ 4) := by
  intro n
  have hfp : find_phrase (n + 4) lambdaEqL true false
      (skiplines ⟨lamHangText.data, 0⟩ 2) =
      .ok (skiplines ⟨lamHangText.data, 0⟩ 2) := by
    show findPhraseLoop (lowerL lambdaEqL) false true (n + 4)
      (skiplines ⟨lamHangText.data, 0⟩ 2) = _
    rw [Nat.add_comm n 4]
    exact findPhraseLoop_add _ false true n 4 _ _ (by decide)
  simp only [readOnePair, hfp]
  decide

/-- C2 (code bug): on an input whose lambda sub-search hits end of input
without a No more lambdas marker, a Current marker or a further lambda =
candidate line, the candidate loop re-reads the empty string forever without
advancing: it fails for every fuel budget, and the whole sub-search on the
truncated fixture exhausts any fuel given to it — the Python original loops
indefinitely instead of raising a fatal parse error. -/
theorem rec_lambda_loop_nonterminating :
    (∀ fuel : Nat, lamLoop fuel [5, 2] [.val 42, .val 40] lamHangEnd =
      .error .outOfFuel) ∧
    lamHangEnd.eof_check = true ∧
    (∀ n : Nat, readLambdas (n + 4) ⟨lamHangText.data, 0⟩ =
      .error .outOfFuel) := by
  refine ⟨lamLoop_hang, by decide, ?_⟩
  intro n
  have hsk : skiplines ⟨lamHangText.data, 0⟩ 4 = lamHangEnd := by decide
  simp only [readLambdas, readOnePair_hang1 n, readOnePair_hang2 n, hsk,
    lamLoop_hang (n + 4)]
